import Mathlib

/-!
# Verification of `allennlp/fairness/debiasers.py`

Shallow embedding of the two debiasers (`HardDebiaser`, `LinearDebiaser`)
from `allennlp/fairness/debiasers.py`, together with proofs of the
specification's claims about them.

Modelling decisions:

* A torch tensor of shape `(batch_size, ..., dim)` is modelled as a finite
  rose tree `Tensor α`: a leaf `vec xs` is an innermost (dim-sized) row, and
  `stack ts` is one leading/batch axis.  Scalars are generic in `α`; exact
  claims are settled at `α = ℚ` (exact arithmetic), and the claim about
  division by zero at `α = FVal`, a rational extended with a single
  non-finite value that propagates the way IEEE non-finite values
  (`inf`/`nan`) do through `+ - * /`.
* `torch.matmul(embeddings, bias_direction.reshape(-1, 1))` is defined
  exactly when the trailing dimension of `embeddings` equals the length of
  `bias_direction`; otherwise torch raises a shape-mismatch error.  `forward`
  is therefore embedded as an `Option`-valued function: `none` models the
  raised error, `some` the returned tensor.  This matmul computes, for each
  innermost row `v`, the scalar `dot v bias_direction`, which is then
  broadcast against `bias_direction` and the scalar `dot bias_direction
  bias_direction`, so `forward` acts row-wise on the leaves.
* `with torch.set_grad_enabled(self.requires_grad)` only toggles recording
  of the computation for backpropagation; it does not change the computed
  values, so the numeric embedding of `forward` does not consult the stored
  `requires_grad` flag.
-/

/-- `torch.dot v w`: the sum of elementwise products of two vectors
(torch truncation does not arise: both uses in the source square or pair
equal-length vectors). -/
def dot {α : Type} [Add α] [Mul α] [Zero α] (v w : List α) : α :=
  (List.zipWith (fun x y => x * y) v w).sum

/-- The row-wise action of `HardDebiaser.forward` on one innermost row `v`:
`v - (v · b) * b / (b · b)` elementwise, following the source expression
`embeddings - torch.matmul(embeddings, bias_direction.reshape(-1, 1)) *
bias_direction / torch.dot(bias_direction, bias_direction)` (in Python,
`*` and `/` group as `((matmul * bias_direction) / dot)`). -/
def hardDebiasVec {α : Type} [Add α] [Sub α] [Mul α] [Div α] [Zero α]
    (v bias_direction : List α) : List α :=
  List.zipWith (fun x y => x - y) v
    (bias_direction.map
      (fun bi => dot v bias_direction * bi / dot bias_direction bias_direction))

/-- The row-wise action of `LinearDebiaser.forward` on one innermost row `v`:
`v - (v · b) * b` elementwise, following the source expression
`embeddings - torch.matmul(embeddings, bias_direction.reshape(-1, 1)) *
bias_direction`. -/
def linearDebiasVec {α : Type} [Add α] [Sub α] [Mul α] [Zero α]
    (v bias_direction : List α) : List α :=
  List.zipWith (fun x y => x - y) v
    (bias_direction.map (fun bi => dot v bias_direction * bi))

/-- A torch tensor of shape `(batch_size, ..., dim)`: a leaf `vec xs` is one
innermost row of length `dim`; `stack ts` is one leading axis. -/
inductive Tensor (α : Type) where
  | vec (xs : List α)
  | stack (ts : List (Tensor α))

mutual
/-- Apply a function to every innermost row of a tensor (the row-wise
broadcasting of the debias expressions over all leading axes). -/
def Tensor.mapVecs {α β : Type} (f : List α → List β) : Tensor α → Tensor β
  | .vec xs => .vec (f xs)
  | .stack ts => .stack (Tensor.mapVecsList f ts)
/-- `Tensor.mapVecs` on a list of subtensors. -/
def Tensor.mapVecsList {α β : Type} (f : List α → List β) :
    List (Tensor α) → List (Tensor β)
  | [] => []
  | t :: ts => Tensor.mapVecs f t :: Tensor.mapVecsList f ts
end

mutual
/-- Whether every innermost row of the tensor has length `n`: the condition
under which `torch.matmul(embeddings, bias_direction.reshape(-1, 1))` is
defined for a `bias_direction` of length `n` (otherwise torch raises a
shape-mismatch error). -/
def Tensor.lastDimAll {α : Type} (n : Nat) : Tensor α → Bool
  | .vec xs => xs.length == n
  | .stack ts => Tensor.lastDimAllList n ts
/-- `Tensor.lastDimAll` on a list of subtensors. -/
def Tensor.lastDimAllList {α : Type} (n : Nat) : List (Tensor α) → Bool
  | [] => true
  | t :: ts => Tensor.lastDimAll n t && Tensor.lastDimAllList n ts
end

mutual
/-- The list of all innermost rows of a tensor, in order. -/
def Tensor.leaves {α : Type} : Tensor α → List (List α)
  | .vec xs => [xs]
  | .stack ts => Tensor.leavesList ts
/-- `Tensor.leaves` on a list of subtensors. -/
def Tensor.leavesList {α : Type} : List (Tensor α) → List (List α)
  | [] => []
  | t :: ts => Tensor.leaves t ++ Tensor.leavesList ts
end

/-- The shape of a tensor: the same tree with every scalar erased, so two
tensors have equal `shape` exactly when they agree on every axis size and
on every innermost row length. -/
def Tensor.shape {α : Type} : Tensor α → Tensor Unit :=
  Tensor.mapVecs (fun xs => xs.map (fun _ => ()))

/-- `HasShape t s`: the tensor is rectangular with torch shape `s`
(`vec xs` has shape `[xs.length]`; stacking `n` subtensors of shape `s`
has shape `n :: s`). -/
inductive HasShape {α : Type} : Tensor α → List Nat → Prop where
  | vec (xs : List α) : HasShape (.vec xs) [xs.length]
  | stack (ts : List (Tensor α)) (s : List Nat) :
      (∀ t ∈ ts, HasShape t s) → HasShape (.stack ts) (ts.length :: s)

/-- `class Debiaser`: parent class for bias debiaser classes; its
`__init__` stores the `requires_grad` option (default `False`). -/
structure Debiaser where
  requires_grad : Bool := false

/-- `class HardDebiaser(Debiaser)`. -/
structure HardDebiaser extends Debiaser

/-- `class LinearDebiaser(Debiaser)`. -/
structure LinearDebiaser extends Debiaser

/-- `HardDebiaser.forward(self, embeddings, bias_direction)`:
`embeddings - torch.matmul(embeddings, bias_direction.reshape(-1, 1)) *
bias_direction / torch.dot(bias_direction, bias_direction)`, computed under
`torch.set_grad_enabled(self.requires_grad)` (which does not change the
numeric result).  `none` models the shape-mismatch error torch raises from
the matmul when some innermost row's length differs from
`bias_direction`'s. -/
def HardDebiaser.forward {α : Type} [Add α] [Sub α] [Mul α] [Div α] [Zero α]
    (d : HardDebiaser) (embeddings : Tensor α) (bias_direction : List α) :
    Option (Tensor α) :=
  if embeddings.lastDimAll bias_direction.length then
    some (embeddings.mapVecs (fun v => hardDebiasVec v bias_direction))
  else
    none

/-- `LinearDebiaser.forward(self, embeddings, bias_direction)`:
`embeddings - torch.matmul(embeddings, bias_direction.reshape(-1, 1)) *
bias_direction`, computed under
`torch.set_grad_enabled(self.requires_grad)` (which does not change the
numeric result).  `none` models the shape-mismatch error torch raises from
the matmul when some innermost row's length differs from
`bias_direction`'s. -/
def LinearDebiaser.forward {α : Type} [Add α] [Sub α] [Mul α] [Zero α]
    (d : LinearDebiaser) (embeddings : Tensor α) (bias_direction : List α) :
    Option (Tensor α) :=
  if embeddings.lastDimAll bias_direction.length then
    some (embeddings.mapVecs (fun v => linearDebiasVec v bias_direction))
  else
    none

/-- Rationals extended with one absorbing non-finite value, abstracting the
IEEE non-finite floats (`inf`, `-inf`, `nan`): any arithmetic operation
touching a non-finite value is non-finite, and dividing a finite value by
zero is non-finite (in IEEE: `±inf`, or `nan` for `0/0`). -/
inductive FVal where
  | fin (q : ℚ)
  | nonfin
deriving DecidableEq

/-- `FVal` addition: finite on finite operands, otherwise non-finite. -/
def FVal.add : FVal → FVal → FVal
  | .fin x, .fin y => .fin (x + y)
  | _, _ => .nonfin

/-- `FVal` subtraction: finite on finite operands, otherwise non-finite. -/
def FVal.sub : FVal → FVal → FVal
  | .fin x, .fin y => .fin (x - y)
  | _, _ => .nonfin

/-- `FVal` multiplication: finite on finite operands, otherwise
non-finite. -/
def FVal.mul : FVal → FVal → FVal
  | .fin x, .fin y => .fin (x * y)
  | _, _ => .nonfin

/-- `FVal` division: division of a finite value by a finite nonzero value
is finite; dividing by zero, or any operand being non-finite, is
non-finite. -/
def FVal.div : FVal → FVal → FVal
  | .fin x, .fin y => if y = 0 then .nonfin else .fin (x / y)
  | _, _ => .nonfin

instance : Zero FVal := ⟨.fin 0⟩

instance : Add FVal := ⟨FVal.add⟩

instance : Sub FVal := ⟨FVal.sub⟩

instance : Mul FVal := ⟨FVal.mul⟩

instance : Div FVal := ⟨FVal.div⟩

/-! ## Vector-level lemmas over ℚ -/

theorem dot_nil_right {α : Type} [Add α] [Mul α] [Zero α] (v : List α) :
    dot v [] = 0 := by
  cases v <;> rfl

theorem dot_cons {α : Type} [Add α] [Mul α] [Zero α] (x y : α) (v w : List α) :
    dot (x :: v) (y :: w) = x * y + dot v w := by
  simp [dot]

theorem dot_zipWith_sub (v w b : List ℚ) (h : v.length = w.length) :
    dot (List.zipWith (fun x y => x - y) v w) b = dot v b - dot w b := by
  induction v generalizing w b with
  | nil =>
    cases w with
    | nil => simp [dot]
    | cons y w => simp at h
  | cons x v ih =>
    cases w with
    | nil => simp at h
    | cons y w =>
      cases b with
      | nil => simp [dot_nil_right]
      | cons c b =>
        simp only [List.zipWith_cons_cons, dot_cons]
        rw [ih w b (by simpa using h)]
        ring

theorem dot_map_smul (k : ℚ) (b w : List ℚ) :
    dot (b.map (fun x => k * x)) w = k * dot b w := by
  induction b generalizing w with
  | nil => simp [dot]
  | cons x b ih =>
    cases w with
    | nil => simp [dot_nil_right]
    | cons y w =>
      simp only [List.map_cons, dot_cons]
      rw [ih w]
      ring

theorem dot_self_nonneg (v : List ℚ) : 0 ≤ dot v v := by
  induction v with
  | nil => simp [dot]
  | cons x v ih =>
    rw [dot_cons]
    exact add_nonneg (mul_self_nonneg x) ih

theorem dot_self_eq_zero_iff (v : List ℚ) :
    dot v v = 0 ↔ ∀ x ∈ v, x = 0 := by
  induction v with
  | nil => simp [dot]
  | cons x v ih =>
    rw [dot_cons]
    rw [add_eq_zero_iff_of_nonneg (mul_self_nonneg x) (dot_self_nonneg v)]
    simp [mul_self_eq_zero, ih]

theorem dot_eq_zero_of_right_zero (v b : List ℚ) (hb : ∀ x ∈ b, x = 0) :
    dot v b = 0 := by
  induction v generalizing b with
  | nil => simp [dot]
  | cons x v ih =>
    cases b with
    | nil => simp [dot_nil_right]
    | cons y b =>
      have hy : y = 0 := hb y (by simp)
      rw [dot_cons, hy, mul_zero, zero_add]
      exact ih b (fun x hx => hb x (by simp [hx]))

theorem hardDebiasVec_eq_smul_form (v b : List ℚ) :
    hardDebiasVec v b =
      List.zipWith (fun x y => x - y) v
        (b.map (fun bi => (dot v b / dot b b) * bi)) := by
  unfold hardDebiasVec
  congr 1
  exact List.map_congr_left (fun bi _ => by rw [mul_div_right_comm])

theorem length_hardDebiasVec (v b : List ℚ) :
    (hardDebiasVec v b).length = min v.length b.length := by
  simp [hardDebiasVec]

theorem length_linearDebiasVec (v b : List ℚ) :
    (linearDebiasVec v b).length = min v.length b.length := by
  simp [linearDebiasVec]

theorem dot_hardDebiasVec_self (v b : List ℚ) (h : v.length = b.length) :
    dot (hardDebiasVec v b) b = 0 := by
  rw [hardDebiasVec_eq_smul_form,
    dot_zipWith_sub v _ b (by simp [h]), dot_map_smul]
  by_cases hbb : dot b b = 0
  · have hb0 : ∀ x ∈ b, x = 0 := (dot_self_eq_zero_iff b).mp hbb
    rw [dot_eq_zero_of_right_zero v b hb0, hbb]
    norm_num
  · rw [div_mul_cancel₀ _ hbb, sub_self]

theorem dot_linearDebiasVec_self (v b : List ℚ) (h : v.length = b.length) :
    dot (linearDebiasVec v b) b = dot v b * (1 - dot b b) := by
  unfold linearDebiasVec
  rw [dot_zipWith_sub v _ b (by simp [h]), dot_map_smul]
  ring

theorem zipWith_sub_map_zero (w b : List ℚ) (h : w.length ≤ b.length) :
    List.zipWith (fun x y => x - y) w (b.map (fun _ => (0 : ℚ))) = w := by
  induction w generalizing b with
  | nil => simp
  | cons x w ih =>
    cases b with
    | nil => simp at h
    | cons y b =>
      simp only [List.map_cons, List.zipWith_cons_cons, sub_zero]
      rw [ih b (by simpa using h)]

theorem hardDebiasVec_of_dot_zero (w b : List ℚ) (hw : dot w b = 0)
    (h : w.length ≤ b.length) : hardDebiasVec w b = w := by
  unfold hardDebiasVec
  rw [hw]
  have : b.map (fun bi => 0 * bi / dot b b) = b.map (fun _ => (0 : ℚ)) :=
    List.map_congr_left (fun bi _ => by rw [zero_mul, zero_div])
  rw [this, zipWith_sub_map_zero w b h]

theorem linearDebiasVec_of_dot_zero (w b : List ℚ) (hw : dot w b = 0)
    (h : w.length ≤ b.length) : linearDebiasVec w b = w := by
  unfold linearDebiasVec
  rw [hw]
  have : b.map (fun bi => 0 * bi) = b.map (fun _ => (0 : ℚ)) :=
    List.map_congr_left (fun bi _ => by rw [zero_mul])
  rw [this, zipWith_sub_map_zero w b h]

theorem hardDebiasVec_idem (v b : List ℚ) (h : v.length = b.length) :
    hardDebiasVec (hardDebiasVec v b) b = hardDebiasVec v b := by
  apply hardDebiasVec_of_dot_zero
  · exact dot_hardDebiasVec_self v b h
  · rw [length_hardDebiasVec, h]
    exact min_le_right _ _

theorem linearDebiasVec_idem (v b : List ℚ) (h : v.length = b.length)
    (hb : dot b b = 1) :
    linearDebiasVec (linearDebiasVec v b) b = linearDebiasVec v b := by
  apply linearDebiasVec_of_dot_zero
  · rw [dot_linearDebiasVec_self v b h, hb]
    ring
  · rw [length_linearDebiasVec, h]
    exact min_le_right _ _

theorem hardDebiasVec_eq_linearDebiasVec (v b : List ℚ) (hb : dot b b = 1) :
    hardDebiasVec v b = linearDebiasVec v b := by
  unfold hardDebiasVec linearDebiasVec
  congr 1
  exact List.map_congr_left (fun bi _ => by rw [hb, div_one])

/-! ## Tensor-level lemmas -/

theorem Tensor.inductionOn {α : Type} {P : Tensor α → Prop}
    (hv : ∀ xs, P (.vec xs))
    (hs : ∀ ts, (∀ t ∈ ts, P t) → P (.stack ts)) :
    ∀ t, P t := by
  intro t
  refine @Tensor.rec α P (fun ts => ∀ x ∈ ts, P x) hv ?_ ?_ ?_ t
  · intro ts ih
    exact hs ts ih
  · intro x hx
    simp at hx
  · intro t ts ht hts x hx
    rcases List.mem_cons.mp hx with h | h
    · exact h ▸ ht
    · exact hts x h

theorem leavesList_mapVecsList {α β : Type} (f : List α → List β)
    (ts : List (Tensor α))
    (ih : ∀ t ∈ ts, (Tensor.mapVecs f t).leaves = t.leaves.map f) :
    Tensor.leavesList (Tensor.mapVecsList f ts) =
      (Tensor.leavesList ts).map f := by
  induction ts with
  | nil => simp [Tensor.mapVecsList, Tensor.leavesList]
  | cons t ts ihl =>
    simp only [Tensor.mapVecsList, Tensor.leavesList, List.map_append]
    rw [ih t (by simp), ihl (fun u hu => ih u (by simp [hu]))]

theorem leaves_mapVecs {α β : Type} (f : List α → List β) (t : Tensor α) :
    (t.mapVecs f).leaves = t.leaves.map f := by
  induction t using Tensor.inductionOn with
  | hv xs => simp [Tensor.mapVecs, Tensor.leaves]
  | hs ts ih =>
    simp only [Tensor.mapVecs, Tensor.leaves]
    exact leavesList_mapVecsList f ts ih

theorem mem_leavesList {α : Type} (v : List α) (ts : List (Tensor α)) :
    v ∈ Tensor.leavesList ts ↔ ∃ t ∈ ts, v ∈ t.leaves := by
  induction ts with
  | nil => simp [Tensor.leavesList]
  | cons t ts ihl => simp [Tensor.leavesList, ihl]

theorem lastDimAllList_eq_true_iff {α : Type} (n : Nat)
    (ts : List (Tensor α))
    (ih : ∀ t ∈ ts,
      (Tensor.lastDimAll n t = true ↔ ∀ v ∈ t.leaves, v.length = n)) :
    Tensor.lastDimAllList n ts = true ↔
      ∀ v ∈ Tensor.leavesList ts, v.length = n := by
  induction ts with
  | nil => simp [Tensor.lastDimAllList, Tensor.leavesList]
  | cons t ts ihl =>
    simp only [Tensor.lastDimAllList, Tensor.leavesList, Bool.and_eq_true,
      List.mem_append]
    rw [ih t (by simp), ihl (fun u hu => ih u (by simp [hu]))]
    constructor
    · rintro ⟨h1, h2⟩ v hv
      rcases hv with hv | hv
      · exact h1 v hv
      · exact h2 v hv
    · intro h
      exact ⟨fun v hv => h v (Or.inl hv), fun v hv => h v (Or.inr hv)⟩

theorem lastDimAll_eq_true_iff {α : Type} (n : Nat) (t : Tensor α) :
    t.lastDimAll n = true ↔ ∀ v ∈ t.leaves, v.length = n := by
  induction t using Tensor.inductionOn with
  | hv xs => simp [Tensor.lastDimAll, Tensor.leaves]
  | hs ts ih =>
    simp only [Tensor.lastDimAll, Tensor.leaves]
    exact lastDimAllList_eq_true_iff n ts ih

theorem mapVecsList_congr {α β : Type} (f g : List α → List β)
    (ts : List (Tensor α))
    (ih : ∀ t ∈ ts,
      (∀ v ∈ t.leaves, f v = g v) → Tensor.mapVecs f t = Tensor.mapVecs g t)
    (h : ∀ v ∈ Tensor.leavesList ts, f v = g v) :
    Tensor.mapVecsList f ts = Tensor.mapVecsList g ts := by
  induction ts with
  | nil => simp [Tensor.mapVecsList]
  | cons t ts ihl =>
    simp only [Tensor.mapVecsList]
    rw [ih t (by simp)
        (fun v hv => h v (by simp [Tensor.leavesList, hv])),
      ihl (fun u hu hle => ih u (by simp [hu]) hle)
        (fun v hv => h v (by simp [Tensor.leavesList, hv]))]

theorem mapVecs_congr_leaves {α β : Type} (f g : List α → List β)
    (t : Tensor α) (h : ∀ v ∈ t.leaves, f v = g v) :
    t.mapVecs f = t.mapVecs g := by
  induction t using Tensor.inductionOn with
  | hv xs => simp [Tensor.mapVecs, Tensor.leaves] at h ⊢; rw [h]
  | hs ts ih =>
    simp only [Tensor.mapVecs, Tensor.leaves] at h ⊢
    rw [mapVecsList_congr f g ts ih h]

theorem mapVecsList_mapVecsList {α β γ : Type} (f : List α → List β)
    (g : List β → List γ) (ts : List (Tensor α))
    (ih : ∀ t ∈ ts,
      (Tensor.mapVecs f t).mapVecs g = Tensor.mapVecs (fun xs => g (f xs)) t) :
    Tensor.mapVecsList g (Tensor.mapVecsList f ts) =
      Tensor.mapVecsList (fun xs => g (f xs)) ts := by
  induction ts with
  | nil => simp [Tensor.mapVecsList]
  | cons t ts ihl =>
    simp only [Tensor.mapVecsList]
    rw [ih t (by simp), ihl (fun u hu => ih u (by simp [hu]))]

theorem mapVecs_mapVecs {α β γ : Type} (f : List α → List β)
    (g : List β → List γ) (t : Tensor α) :
    (t.mapVecs f).mapVecs g = Tensor.mapVecs (fun xs => g (f xs)) t := by
  induction t using Tensor.inductionOn with
  | hv xs => simp [Tensor.mapVecs]
  | hs ts ih =>
    simp only [Tensor.mapVecs]
    rw [mapVecsList_mapVecsList f g ts ih]

theorem map_unit_eq_of_length {α β : Type} (xs : List α) (ys : List β)
    (h : xs.length = ys.length) :
    xs.map (fun _ => ()) = ys.map (fun _ => ()) := by
  rw [List.map_const', List.map_const', h]

theorem shape_mapVecs {α β : Type} (f : List α → List β) (t : Tensor α)
    (h : ∀ v ∈ t.leaves, (f v).length = v.length) :
    (t.mapVecs f).shape = t.shape := by
  unfold Tensor.shape
  rw [mapVecs_mapVecs]
  exact mapVecs_congr_leaves _ _ t
    (fun v hv => map_unit_eq_of_length _ _ (h v hv))

theorem HasShape.shape_ne_nil {α : Type} {t : Tensor α} {s : List Nat}
    (h : HasShape t s) : s ≠ [] := by
  cases h <;> simp

theorem HasShape.length_of_mem_leaves {α : Type} {t : Tensor α}
    {s : List Nat} (h : HasShape t s) :
    ∀ s₀ d, s = s₀ ++ [d] → ∀ v ∈ t.leaves, v.length = d := by
  induction h with
  | vec xs =>
    intro s₀ d hs v hv
    simp only [Tensor.leaves, List.mem_singleton] at hv
    subst hv
    cases s₀ with
    | nil => simpa using hs
    | cons a s₀ =>
      exfalso
      have := congrArg List.length hs
      simp at this
  | stack ts s hts ih =>
    intro s₀ d hs v hv
    cases s₀ with
    | nil =>
      exfalso
      simp only [List.nil_append, List.cons.injEq] at hs
      rcases ts with _ | ⟨t₀, ts⟩
      · simp [Tensor.leaves, Tensor.leavesList] at hv
      · exact (hts t₀ (by simp)).shape_ne_nil hs.2
    | cons a s₀ =>
      simp only [List.cons_append, List.cons.injEq] at hs
      simp only [Tensor.leaves, mem_leavesList] at hv
      rcases hv with ⟨t₀, ht₀, hv⟩
      exact ih t₀ ht₀ s₀ d hs.2 v hv

theorem HasShape.lastDimAll_true {α : Type} {t : Tensor α} {s : List Nat}
    {d : Nat} (h : HasShape t (s ++ [d])) : t.lastDimAll d = true :=
  (lastDimAll_eq_true_iff d t).mpr (h.length_of_mem_leaves s d rfl)

/-! ## Forward-level helper lemmas -/

theorem forward_eq_some_iff_hard (dh : HardDebiaser) (e : Tensor ℚ)
    (b : List ℚ) (out : Tensor ℚ) :
    dh.forward e b = some out ↔
      e.lastDimAll b.length = true ∧
        out = e.mapVecs (fun v => hardDebiasVec v b) := by
  rw [HardDebiaser.forward]
  split
  case isTrue h =>
    constructor
    · intro hsome
      exact ⟨h, (Option.some_injective _ hsome).symm⟩
    · rintro ⟨-, rfl⟩
      rfl
  case isFalse h =>
    constructor
    · intro hsome
      cases hsome
    · rintro ⟨hg, -⟩
      exact absurd hg h

theorem forward_eq_some_iff_linear (dl : LinearDebiaser) (e : Tensor ℚ)
    (b : List ℚ) (out : Tensor ℚ) :
    dl.forward e b = some out ↔
      e.lastDimAll b.length = true ∧
        out = e.mapVecs (fun v => linearDebiasVec v b) := by
  rw [LinearDebiaser.forward]
  split
  case isTrue h =>
    constructor
    · intro hsome
      exact ⟨h, (Option.some_injective _ hsome).symm⟩
    · rintro ⟨-, rfl⟩
      rfl
  case isFalse h =>
    constructor
    · intro hsome
      cases hsome
    · rintro ⟨hg, -⟩
      exact absurd hg h

theorem mapVecs_debias_idem (e : Tensor ℚ) (b : List ℚ)
    (f : List ℚ → List ℚ)
    (hlen : ∀ v, v.length = b.length → (f v).length = v.length)
    (hidem : ∀ v, v.length = b.length → f (f v) = f v)
    (hg : e.lastDimAll b.length = true) :
    (e.mapVecs f).lastDimAll b.length = true ∧
      (e.mapVecs f).mapVecs f = e.mapVecs f := by
  have hleaves := (lastDimAll_eq_true_iff _ e).mp hg
  constructor
  · rw [lastDimAll_eq_true_iff]
    intro v hv
    rw [leaves_mapVecs] at hv
    rcases List.mem_map.mp hv with ⟨u, hu, rfl⟩
    rw [hlen u (hleaves u hu), hleaves u hu]
  · rw [mapVecs_mapVecs]
    exact mapVecs_congr_leaves _ _ e (fun v hv => hidem v (hleaves v hv))

theorem hardDebiaser_forward_idem_of_some (dh : HardDebiaser) (e : Tensor ℚ)
    (b : List ℚ) (out : Tensor ℚ) (hout : dh.forward e b = some out) :
    dh.forward out b = some out := by
  rcases (forward_eq_some_iff_hard dh e b out).mp hout with ⟨hg, rfl⟩
  have aux := mapVecs_debias_idem e b (fun v => hardDebiasVec v b)
    (fun v hv => by rw [length_hardDebiasVec, hv, Nat.min_self])
    (fun v hv => hardDebiasVec_idem v b hv) hg
  exact (forward_eq_some_iff_hard dh _ b _).mpr ⟨aux.1, aux.2.symm⟩

theorem linearDebiaser_forward_idem_of_some_unit (dl : LinearDebiaser)
    (e : Tensor ℚ) (b : List ℚ) (out : Tensor ℚ) (hb : dot b b = 1)
    (hout : dl.forward e b = some out) :
    dl.forward out b = some out := by
  rcases (forward_eq_some_iff_linear dl e b out).mp hout with ⟨hg, rfl⟩
  have aux := mapVecs_debias_idem e b (fun v => linearDebiasVec v b)
    (fun v hv => by rw [length_linearDebiasVec, hv, Nat.min_self])
    (fun v hv => linearDebiasVec_idem v b hv hb) hg
  exact (forward_eq_some_iff_linear dl _ b _).mpr ⟨aux.1, aux.2.symm⟩

/-! ## FVal lemmas (division by a zero direction) -/

theorem FVal.div_fin_zero (x : FVal) : x / FVal.fin 0 = FVal.nonfin := by
  show FVal.div x (FVal.fin 0) = FVal.nonfin
  cases x with
  | fin q => simp [FVal.div]
  | nonfin => rfl

theorem FVal.sub_nonfin (x : FVal) : x - FVal.nonfin = FVal.nonfin := by
  show FVal.sub x FVal.nonfin = FVal.nonfin
  cases x <;> rfl

theorem FVal.fin_zero_mul (x : FVal) :
    FVal.fin 0 * x = FVal.fin 0 ∨ FVal.fin 0 * x = FVal.nonfin := by
  show FVal.mul (FVal.fin 0) x = _ ∨ FVal.mul (FVal.fin 0) x = _
  cases x with
  | fin q => left; simp [FVal.mul]
  | nonfin => right; rfl

theorem FVal.dot_replicate_fin_zero_self (n : Nat) :
    dot (List.replicate n (FVal.fin 0)) (List.replicate n (FVal.fin 0))
      = FVal.fin 0 := by
  induction n with
  | zero => rfl
  | succ n ih =>
    have step : dot (List.replicate (n + 1) (FVal.fin 0))
        (List.replicate (n + 1) (FVal.fin 0))
        = FVal.fin 0 * FVal.fin 0 +
          dot (List.replicate n (FVal.fin 0))
            (List.replicate n (FVal.fin 0)) := by
      rw [List.replicate_succ, dot_cons]
    rw [step, ih]
    show FVal.add (FVal.mul (FVal.fin 0) (FVal.fin 0)) (FVal.fin 0) = FVal.fin 0
    simp [FVal.mul, FVal.add]

theorem hardDebiasVec_replicate_fin_zero (v : List FVal) (n : Nat) :
    ∀ x ∈ hardDebiasVec v (List.replicate n (FVal.fin 0)), x = FVal.nonfin := by
  intro x hx
  unfold hardDebiasVec at hx
  rw [List.map_replicate, FVal.dot_replicate_fin_zero_self,
    FVal.div_fin_zero] at hx
  induction v generalizing n with
  | nil => simp at hx
  | cons a v ih =>
    cases n with
    | zero => simp at hx
    | succ n =>
      rw [List.replicate_succ, List.zipWith_cons_cons] at hx
      rcases List.mem_cons.mp hx with h | h
      · rw [h, FVal.sub_nonfin]
      · exact ih n h

/-! ## Claims -/

/-- C1: for every embeddings batch `e` and every nonzero bias direction `b`
of matching dimension (i.e. `forward` returns a tensor rather than the
shape-mismatch error), every output row of `HardDebiaser.forward e b` has
exactly zero inner product with `b` in exact arithmetic: the component of
each embedding along `b` is fully removed. -/
theorem hardDebiaser_forward_orthogonal (dh : HardDebiaser) (e : Tensor ℚ)
    (b : List ℚ) (hb : ¬ ∀ x ∈ b, x = 0) (out : Tensor ℚ)
    (hout : dh.forward e b = some out) :
    ∀ v ∈ out.leaves, dot v b = 0 := by
  rcases (forward_eq_some_iff_hard dh e b out).mp hout with ⟨hg, rfl⟩
  intro v hv
  rw [leaves_mapVecs] at hv
  rcases List.mem_map.mp hv with ⟨u, hu, rfl⟩
  exact dot_hardDebiasVec_self u b ((lastDimAll_eq_true_iff _ e).mp hg u hu)

/-- Witness for C1 at `e = [1, 0]`, `b = [1, 1]`. -/
theorem hardDebiaser_forward_orthogonal_witness :
    dot [(1 : ℚ)/2, -(1/2)] [1, 1] = 0 :=
  hardDebiaser_forward_orthogonal ⟨⟨false⟩⟩ (Tensor.vec [1, 0]) [1, 1]
    (by norm_num) (Tensor.vec [1/2, -(1/2)])
    (by norm_num [HardDebiaser.forward, Tensor.lastDimAll, Tensor.mapVecs,
      hardDebiasVec, dot])
    [1/2, -(1/2)] (by simp [Tensor.leaves])

/-- C2: for every embeddings batch `e` and every unit-norm bias direction
`b` (`b · b = 1`) of matching dimension, every output row of
`LinearDebiaser.forward e b` has exactly zero inner product with `b`. -/
theorem linearDebiaser_forward_orthogonal_unit (dl : LinearDebiaser)
    (e : Tensor ℚ) (b : List ℚ) (hb : dot b b = 1) (out : Tensor ℚ)
    (hout : dl.forward e b = some out) :
    ∀ v ∈ out.leaves, dot v b = 0 := by
  rcases (forward_eq_some_iff_linear dl e b out).mp hout with ⟨hg, rfl⟩
  intro v hv
  rw [leaves_mapVecs] at hv
  rcases List.mem_map.mp hv with ⟨u, hu, rfl⟩
  rw [dot_linearDebiasVec_self u b
    ((lastDimAll_eq_true_iff _ e).mp hg u hu), hb]
  ring

/-- Witness for C2 at `e = [3, 4]`, `b = [1, 0]`. -/
theorem linearDebiaser_forward_orthogonal_unit_witness :
    dot [(0 : ℚ), 4] [1, 0] = 0 :=
  linearDebiaser_forward_orthogonal_unit ⟨⟨false⟩⟩ (Tensor.vec [3, 4]) [1, 0]
    (by norm_num [dot]) (Tensor.vec [0, 4])
    (by norm_num [LinearDebiaser.forward, Tensor.lastDimAll, Tensor.mapVecs,
      linearDebiasVec, dot])
    [0, 4] (by simp [Tensor.leaves])

/-- C3: for every embeddings batch `e` and every bias direction `b` with
`b · b = 1`, `HardDebiaser.forward e b` equals `LinearDebiaser.forward e b`
exactly (the two variants differ only by the normalizing division by
`b · b`, which is division by one on unit directions). -/
theorem hardDebiaser_forward_eq_linearDebiaser_forward_unit
    (dh : HardDebiaser) (dl : LinearDebiaser) (e : Tensor ℚ) (b : List ℚ)
    (hb : dot b b = 1) :
    dh.forward e b = dl.forward e b := by
  rw [HardDebiaser.forward, LinearDebiaser.forward]
  by_cases hg : e.lastDimAll b.length = true
  · rw [if_pos hg, if_pos hg]
    congr 1
    exact mapVecs_congr_leaves _ _ e
      (fun v _ => hardDebiasVec_eq_linearDebiasVec v b hb)
  · rw [if_neg hg, if_neg hg]

/-- Witness for C3 at `e = [3, 4]`, `b = [1, 0]`. -/
theorem hardDebiaser_forward_eq_linearDebiaser_forward_unit_witness :
    (⟨⟨false⟩⟩ : HardDebiaser).forward (Tensor.vec [(3 : ℚ), 4]) [1, 0]
      = (⟨⟨false⟩⟩ : LinearDebiaser).forward (Tensor.vec [(3 : ℚ), 4]) [1, 0] :=
  hardDebiaser_forward_eq_linearDebiaser_forward_unit ⟨⟨false⟩⟩ ⟨⟨false⟩⟩
    (Tensor.vec [3, 4]) [1, 0] (by norm_num [dot])

/-- C4 counterexample: `LinearDebiaser.forward` is not idempotent for the
non-unit direction `b = [1, 1]`: at `e = [1, 0]` one application yields
`[0, -1]`, and applying `forward` again to `[0, -1]` yields `[1, 0]`,
not `[0, -1]`. -/
theorem linearDebiaser_forward_not_idempotent :
    (⟨⟨false⟩⟩ : LinearDebiaser).forward (Tensor.vec [(1 : ℚ), 0]) [1, 1]
        = some (Tensor.vec [0, -1]) ∧
      (⟨⟨false⟩⟩ : LinearDebiaser).forward (Tensor.vec [(0 : ℚ), -1]) [1, 1]
        = some (Tensor.vec [1, 0]) ∧
      some (Tensor.vec [(1 : ℚ), 0]) ≠ some (Tensor.vec [(0 : ℚ), -1]) := by
  refine ⟨?_, ?_, ?_⟩
  · norm_num [LinearDebiaser.forward, Tensor.lastDimAll, Tensor.mapVecs,
      linearDebiasVec, dot]
  · norm_num [LinearDebiaser.forward, Tensor.lastDimAll, Tensor.mapVecs,
      linearDebiasVec, dot]
  · intro h
    rw [Option.some_inj] at h
    cases h

/-- C4 (amended): `HardDebiaser.forward` is idempotent for every embeddings
batch and every bias direction; `LinearDebiaser.forward` is idempotent for
every embeddings batch whenever the bias direction is unit-norm
(`b · b = 1`, its documented contract), but not for arbitrary directions. -/
theorem debiaser_forward_idempotent_amended :
    (∀ (dh : HardDebiaser) (e : Tensor ℚ) (b : List ℚ) (out : Tensor ℚ),
        dh.forward e b = some out → dh.forward out b = some out) ∧
      (∀ (dl : LinearDebiaser) (e : Tensor ℚ) (b : List ℚ) (out : Tensor ℚ),
        dot b b = 1 → dl.forward e b = some out →
          dl.forward out b = some out) :=
  ⟨fun dh e b out hout => hardDebiaser_forward_idem_of_some dh e b out hout,
   fun dl e b out hb hout =>
     linearDebiaser_forward_idem_of_some_unit dl e b out hb hout⟩

/-- Witness for the amended C4: the hard variant at `e = [1, 0]`,
`b = [1, 1]` (first application yields `[1/2, -1/2]`, which `forward`
returns unchanged), and the linear variant at `e = [3, 4]`, the unit
`b = [1, 0]` (first application yields `[0, 4]`, returned unchanged). -/
theorem debiaser_forward_idempotent_amended_witness :
    (⟨⟨false⟩⟩ : HardDebiaser).forward (Tensor.vec [(1 : ℚ)/2, -(1/2)]) [1, 1]
        = some (Tensor.vec [1/2, -(1/2)]) ∧
      (⟨⟨false⟩⟩ : LinearDebiaser).forward (Tensor.vec [(0 : ℚ), 4]) [1, 0]
        = some (Tensor.vec [0, 4]) :=
  ⟨debiaser_forward_idempotent_amended.1 ⟨⟨false⟩⟩ (Tensor.vec [1, 0]) [1, 1]
      (Tensor.vec [1/2, -(1/2)])
      (by norm_num [HardDebiaser.forward, Tensor.lastDimAll, Tensor.mapVecs,
        hardDebiasVec, dot]),
   debiaser_forward_idempotent_amended.2 ⟨⟨false⟩⟩ (Tensor.vec [3, 4]) [1, 0]
      (Tensor.vec [0, 4]) (by norm_num [dot])
      (by norm_num [LinearDebiaser.forward, Tensor.lastDimAll, Tensor.mapVecs,
        linearDebiasVec, dot])⟩

/-- C5: for both variants, whenever the embeddings tensor is rectangular
with trailing dimension equal to the length of `bias_direction` (any number
and sizes of leading/batch dimensions `s`), `forward` returns a tensor of
exactly the same shape as the input. -/
theorem debiaser_forward_shape_preservation (dh : HardDebiaser)
    (dl : LinearDebiaser) (e : Tensor ℚ) (b : List ℚ) (s : List Nat)
    (hshape : HasShape e (s ++ [b.length])) :
    (∃ o, dh.forward e b = some o ∧ o.shape = e.shape) ∧
      ∃ o, dl.forward e b = some o ∧ o.shape = e.shape := by
  have hg : e.lastDimAll b.length = true := hshape.lastDimAll_true
  have hleaves := (lastDimAll_eq_true_iff _ e).mp hg
  constructor
  · refine ⟨_, (forward_eq_some_iff_hard dh e b _).mpr ⟨hg, rfl⟩, ?_⟩
    exact shape_mapVecs _ e (fun v hv => by
      rw [length_hardDebiasVec, hleaves v hv, Nat.min_self])
  · refine ⟨_, (forward_eq_some_iff_linear dl e b _).mpr ⟨hg, rfl⟩, ?_⟩
    exact shape_mapVecs _ e (fun v hv => by
      rw [length_linearDebiasVec, hleaves v hv, Nat.min_self])

/-- Witness for C5 at the 2 × 2 batch `e = [[1, 2], [3, 4]]` with
`b = [1, 1]` (one leading dimension of size 2). -/
theorem debiaser_forward_shape_preservation_witness :
    (∃ o, (⟨⟨false⟩⟩ : HardDebiaser).forward
          (Tensor.stack [Tensor.vec [(1 : ℚ), 2], Tensor.vec [3, 4]]) [1, 1]
        = some o ∧
        o.shape = (Tensor.stack
          [Tensor.vec [(1 : ℚ), 2], Tensor.vec [3, 4]]).shape) ∧
      ∃ o, (⟨⟨false⟩⟩ : LinearDebiaser).forward
          (Tensor.stack [Tensor.vec [(1 : ℚ), 2], Tensor.vec [3, 4]]) [1, 1]
        = some o ∧
        o.shape = (Tensor.stack
          [Tensor.vec [(1 : ℚ), 2], Tensor.vec [3, 4]]).shape :=
  debiaser_forward_shape_preservation ⟨⟨false⟩⟩ ⟨⟨false⟩⟩
    (Tensor.stack [Tensor.vec [1, 2], Tensor.vec [3, 4]]) [1, 1] [2]
    (by
      refine HasShape.stack _ [2] ?_
      intro t ht
      simp only [List.mem_cons, List.not_mem_nil, or_false] at ht
      rcases ht with h | h <;> rw [h] <;> exact HasShape.vec _)

/-- C6: for both variants, `forward` results in the shape-mismatch error
(`none`) exactly when the trailing dimension `d` of the (rectangular,
nonempty) embeddings tensor differs from the length of `bias_direction`;
no other input validation is performed. -/
theorem debiaser_forward_error_iff_mismatch (dh : HardDebiaser)
    (dl : LinearDebiaser) (e : Tensor ℚ) (b : List ℚ) (s : List Nat)
    (d : Nat) (hshape : HasShape e (s ++ [d])) (hne : e.leaves ≠ []) :
    (dh.forward e b = none ↔ d ≠ b.length) ∧
      (dl.forward e b = none ↔ d ≠ b.length) := by
  have hlen := hshape.length_of_mem_leaves s d rfl
  by_cases hd : d = b.length
  · have hg : e.lastDimAll b.length = true :=
      (lastDimAll_eq_true_iff _ e).mpr (fun v hv => (hlen v hv).trans hd)
    rw [HardDebiaser.forward, LinearDebiaser.forward, if_pos hg, if_pos hg]
    simp [hd]
  · obtain ⟨v₀, rest, he⟩ := List.exists_cons_of_ne_nil hne
    have hv₀ : v₀ ∈ e.leaves := by rw [he]; simp
    have hg : ¬ e.lastDimAll b.length = true := by
      intro hg
      exact hd ((hlen v₀ hv₀).symm.trans
        ((lastDimAll_eq_true_iff _ e).mp hg v₀ hv₀))
    rw [HardDebiaser.forward, LinearDebiaser.forward, if_neg hg, if_neg hg]
    simp [hd]

/-- Witness for C6: `e = [1, 2, 3]` (trailing dimension 3) against
`b = [1, 2]` (length 2) raises the shape-mismatch error in both variants. -/
theorem debiaser_forward_error_iff_mismatch_witness :
    ((⟨⟨false⟩⟩ : HardDebiaser).forward (Tensor.vec [(1 : ℚ), 2, 3]) [1, 2]
        = none ↔ 3 ≠ [(1 : ℚ), 2].length) ∧
      ((⟨⟨false⟩⟩ : LinearDebiaser).forward (Tensor.vec [(1 : ℚ), 2, 3]) [1, 2]
        = none ↔ 3 ≠ [(1 : ℚ), 2].length) :=
  debiaser_forward_error_iff_mismatch ⟨⟨false⟩⟩ ⟨⟨false⟩⟩
    (Tensor.vec [1, 2, 3]) [1, 2] [] 3 (HasShape.vec _)
    (by simp [Tensor.leaves])

/-- C7: for both variants, a zero `bias_direction` (of matching length `n`)
does not raise an error: `forward` returns a tensor, and in the hard
variant the division by `b · b = 0` propagates non-finite values through
the whole result instead of raising. -/
theorem debiaser_forward_zero_direction_nonfinite (dh : HardDebiaser)
    (dl : LinearDebiaser) (e : Tensor FVal) (n : Nat)
    (hg : e.lastDimAll n = true) :
    (∃ o, dh.forward e (List.replicate n (FVal.fin 0)) = some o ∧
        ∀ v ∈ o.leaves, ∀ x ∈ v, x = FVal.nonfin) ∧
      (dl.forward e (List.replicate n (FVal.fin 0))).isSome = true := by
  have hb : (List.replicate n (FVal.fin 0)).length = n := by simp
  constructor
  · refine ⟨e.mapVecs
      (fun v => hardDebiasVec v (List.replicate n (FVal.fin 0))), ?_, ?_⟩
    · rw [HardDebiaser.forward, hb, if_pos hg]
    · intro v hv x hx
      rw [leaves_mapVecs] at hv
      rcases List.mem_map.mp hv with ⟨u, hu, rfl⟩
      exact hardDebiasVec_replicate_fin_zero u n x hx
  · rw [LinearDebiaser.forward, hb, if_pos hg]
    rfl

/-- Witness for C7 at `e = [1, 2]` (finite values), `n = 2`. -/
theorem debiaser_forward_zero_direction_nonfinite_witness :
    (∃ o, (⟨⟨false⟩⟩ : HardDebiaser).forward
          (Tensor.vec [FVal.fin 1, FVal.fin 2])
          (List.replicate 2 (FVal.fin 0)) = some o ∧
        ∀ v ∈ o.leaves, ∀ x ∈ v, x = FVal.nonfin) ∧
      ((⟨⟨false⟩⟩ : LinearDebiaser).forward
          (Tensor.vec [FVal.fin 1, FVal.fin 2])
          (List.replicate 2 (FVal.fin 0))).isSome = true :=
  debiaser_forward_zero_direction_nonfinite ⟨⟨false⟩⟩ ⟨⟨false⟩⟩
    (Tensor.vec [FVal.fin 1, FVal.fin 2]) 2 (by simp [Tensor.lastDimAll])

/-- C8: the stored `requires_grad` flag has no effect on the numeric
result of either variant: a debiaser constructed with `requires_grad =
true` and one constructed with `requires_grad = false` return equal
outputs from `forward` on every input (the flag only toggles autograd
recording in the source). -/
theorem debiaser_forward_requires_grad_irrelevant :
    ∀ (e : Tensor ℚ) (b : List ℚ),
      (⟨⟨true⟩⟩ : HardDebiaser).forward e b
          = (⟨⟨false⟩⟩ : HardDebiaser).forward e b ∧
        (⟨⟨true⟩⟩ : LinearDebiaser).forward e b
          = (⟨⟨false⟩⟩ : LinearDebiaser).forward e b :=
  fun _ _ => ⟨rfl, rfl⟩

/-- C9: on the concrete batch `e = [[1, 0], [0, 1]]` with the non-unit
direction `b = [1, 1]`, the hard variant yields
`[[1/2, -1/2], [-1/2, 1/2]]` and the linear variant yields
`[[0, -1], [-1, 0]]`. -/
theorem debiaser_forward_concrete_example :
    (⟨⟨false⟩⟩ : HardDebiaser).forward
        (Tensor.stack [Tensor.vec [(1 : ℚ), 0], Tensor.vec [0, 1]]) [1, 1]
      = some (Tensor.stack
          [Tensor.vec [1/2, -(1/2)], Tensor.vec [-(1/2), 1/2]]) ∧
      (⟨⟨false⟩⟩ : LinearDebiaser).forward
        (Tensor.stack [Tensor.vec [(1 : ℚ), 0], Tensor.vec [0, 1]]) [1, 1]
      = some (Tensor.stack [Tensor.vec [0, -1], Tensor.vec [-1, 0]]) := by
  constructor
  · norm_num [HardDebiaser.forward, Tensor.lastDimAll, Tensor.lastDimAllList,
      Tensor.mapVecs, Tensor.mapVecsList, hardDebiasVec, dot]
  · norm_num [LinearDebiaser.forward, Tensor.lastDimAll, Tensor.lastDimAllList,
      Tensor.mapVecs, Tensor.mapVecsList, linearDebiasVec, dot]

/-- C10: `HardDebiaser.forward` is idempotent for every bias direction with
`b · b ≠ 0` (unit-norm or not) in exact arithmetic: the normalizing
division makes the first application remove the full component along `b`. -/
theorem hardDebiaser_forward_idempotent_general (dh : HardDebiaser)
    (e : Tensor ℚ) (b : List ℚ) (out : Tensor ℚ) (hb : dot b b ≠ 0)
    (hout : dh.forward e b = some out) :
    dh.forward out b = some out :=
  hardDebiaser_forward_idem_of_some dh e b out hout

/-- Witness for C10 at `e = [1, 0]`, non-unit `b = [1, 1]`. -/
theorem hardDebiaser_forward_idempotent_general_witness :
    (⟨⟨false⟩⟩ : HardDebiaser).forward (Tensor.vec [(1 : ℚ)/2, -(1/2)]) [1, 1]
      = some (Tensor.vec [1/2, -(1/2)]) :=
  hardDebiaser_forward_idempotent_general ⟨⟨false⟩⟩ (Tensor.vec [1, 0]) [1, 1]
    (Tensor.vec [1/2, -(1/2)]) (by norm_num [dot])
    (by norm_num [HardDebiaser.forward, Tensor.lastDimAll, Tensor.mapVecs,
      hardDebiasVec, dot])
